import Mathlib

/-!
Verification of the search-engine kernel in `search_engines.py`.

The Python functions are shallowly embedded as Lean functions:

* dictionaries become functions (`Nat → List Nat`, `String → Option Nat`, ...);
* the synchronized multi-cursor intersection loop of `search_engine` and
  `search_engine_2` becomes the fuel-indexed function `intersectLoop`,
  generic in the element type of the posting lists (`Nat` for the plain
  index, `Nat × ℝ` for the weighted one) with a key projection to the
  DocumentId; fuel exhaustion returns `none` and is proved unreachable;
* Python floats are idealized as real numbers; a Python exception
  (`KeyError`, `ZeroDivisionError`, `math.sqrt` of a negative) is `none`;
* `encode_query` returning `False` is `none`;
* `heapq.nsmallest(k, heap)` is `(mergeSort le).take k`, which is the
  documented semantics `sorted(iterable)[:k]` with lexicographic tuple
  comparison.
-/

namespace SearchEngines

/-- Model of `encode_query` (search_engines.py lines 93-110): encodes each
token through the vocabulary, returning `none` (Python `False`) as soon as a
token is absent. -/
def encode_query (query : List String) (vocabulary : String → Option Nat) :
    Option (List Nat) :=
  match query with
  | [] => some []
  | token :: rest =>
    match vocabulary token with
    | some code => (encode_query rest vocabulary).map (fun encoded => code :: encoded)
    | none => none

/-- Lexicographic comparison of the `(-value, key)` tuples pushed on the heap
in `get_top_k`: Python compares tuples lexicographically. -/
def tuple_le {β : Type} [LinearOrder β] (a b : β × Nat) : Bool :=
  decide (a.1 < b.1) || (decide (a.1 = b.1) && decide (a.2 ≤ b.2))

/-- Model of `heapq.nsmallest n l`, whose documented behaviour is
`sorted(l)[:n]`. -/
def nsmallest {γ : Type} (n : Nat) (le : γ → γ → Bool) (l : List γ) : List γ :=
  (l.mergeSort le).take n

/-- Model of `get_top_k` (lines 113-127): negate the values, take the `k`
smallest `(-value, key)` tuples, swap back. -/
def get_top_k {β : Type} [LinearOrderedAddCommGroup β]
    (dic : List (Nat × β)) (k : Nat) : List (Nat × β) :=
  let heap := dic.map (fun p => (-p.2, p.1))
  let largest := nsmallest k tuple_le heap
  largest.map (fun p => (p.2, -p.1))

/-- Model of `compute_cosine_similarity` (lines 130-149).  For each candidate
document it divides the accumulated score by
`sqrt(squared_tfidf_per_document[doc]) * sqrt(len(encoded_query))`.
`none` models a Python exception: a `KeyError` when the document has no
stored norm, a `ValueError` when the stored norm is negative, and a
`ZeroDivisionError` when the denominator is zero.  There is no guard in the
source: the division is attempted for every candidate. -/
noncomputable def compute_cosine_similarity (encoded_query : List Nat) :
    List (Nat × ℝ) → (Nat → Option ℝ) → Option (List (Nat × ℝ))
  | [], _ => some []
  | p :: rest, squared_tfidf_per_document =>
    match squared_tfidf_per_document p.1 with
    | none => none
    | some nd =>
      if nd < 0 then none
      else if Real.sqrt nd * Real.sqrt (encoded_query.length : ℝ) = 0 then none
      else
        match compute_cosine_similarity encoded_query rest squared_tfidf_per_document with
        | none => none
        | some scores =>
          some ((p.1, p.2 / (Real.sqrt nd * Real.sqrt (encoded_query.length : ℝ))) :: scores)

/-! State of the intersection loop of `search_engine` (lines 219-240) and
`search_engine_2` (lines 268-289): each selected posting list paired with its
cursor `idx`.  The loops are identical except that the weighted one projects
the DocumentId out of `(doc, tfidf)` pairs, hence the `key` parameter. -/

/-- The loop guard `all([k < m for k, m in zip(idx, lists_len)])`. -/
def inBounds {α : Type} (st : List (List α × Nat)) : Bool :=
  st.all (fun p => decide (p.2 < p.1.length))

/-- The element a cursor points at, `docs[idx[list_num]]`.  The default is
never read while the guard holds. -/
def currentOf {α : Type} (d0 : α) (p : List α × Nat) : α :=
  p.1.getD p.2 d0

/-- The `max_num` of one iteration: the maximum DocumentId under the
cursors. -/
def maxDoc {α : Type} (key : α → Nat) (d0 : α) (st : List (List α × Nat)) : Nat :=
  (st.map (fun p => key (currentOf d0 p))).foldl max 0

/-- The test `all([docs[idx[list_num]] == max_num ...])`. -/
def allAtMax {α : Type} (key : α → Nat) (d0 : α) (st : List (List α × Nat)) : Bool :=
  st.all (fun p => key (currentOf d0 p) == maxDoc key d0 st)

/-- The match branch `idx = [i+1 for i in idx]`. -/
def advanceAll {α : Type} (st : List (List α × Nat)) : List (List α × Nat) :=
  st.map (fun p => (p.1, p.2 + 1))

/-- The other branch: advance exactly the cursors not pointing at
`max_num`. -/
def advanceLagging {α : Type} (key : α → Nat) (d0 : α) (m : Nat)
    (st : List (List α × Nat)) : List (List α × Nat) :=
  st.map (fun p => if key (currentOf d0 p) == m then p else (p.1, p.2 + 1))

/-- The `while` loop shared by `search_engine` and `search_engine_2`,
indexed by fuel.  On a full match it emits `(max_num, currents)` where
`currents` are the entries under the cursors (the plain engine keeps only
`max_num`, the weighted engine sums the weights of `currents`).  `none`
means the fuel ran out, which never happens for the fuel used below. -/
def intersectLoop {α : Type} (key : α → Nat) (d0 : α) :
    Nat → List (List α × Nat) → List (Nat × List α) → Option (List (Nat × List α))
  | 0, st, acc => if inBounds st then none else some acc
  | fuel + 1, st, acc =>
    if inBounds st then
      if allAtMax key d0 st then
        intersectLoop key d0 fuel (advanceAll st)
          (acc ++ [(maxDoc key d0 st, st.map (currentOf d0))])
      else
        intersectLoop key d0 fuel (advanceLagging key d0 (maxDoc key d0 st) st) acc
    else some acc

/-- Remaining work of the loop: total number of posting-list entries not yet
passed by their cursor. -/
def meas {α : Type} (st : List (List α × Nat)) : Nat :=
  (st.map (fun p => p.1.length - p.2)).sum

/-- Fuel sufficient to run the loop to completion. -/
def fuelFor {α : Type} (st : List (List α × Nat)) : Nat :=
  meas st + 1

/-- Model of `search_engine` (lines 200-242): look up one posting list per
encoded token and run the intersection loop.  `if encoded_query.isEmpty`
models Python's `if not encoded_query` (also reached when `encode_query`
returned `False`, see `search_call`). -/
def search_engine (encoded_query : List Nat) (inverted_idx : Nat → List Nat) :
    List Nat :=
  if encoded_query.isEmpty then []
  else
    let selected_lists := encoded_query.map inverted_idx
    let st := selected_lists.map (fun l => (l, 0))
    match intersectLoop id 0 (fuelFor st) st [] with
    | some emitted => emitted.map Prod.fst
    | none => []

/-- Model of `search_engine_2` (lines 245-295): the weighted intersection
loop followed by cosine scoring and top-`k` selection.  An emitted
`(max_num, currents)` contributes `docs_scores[max_num] = sum of weights of
currents`, exactly line 278. -/
noncomputable def search_engine_2 (encoded_query : List Nat)
    (inverted_idx2 : Nat → List (Nat × ℝ))
    (squared_tfidf_per_document : Nat → Option ℝ) (k : Nat) :
    Option (List (Nat × ℝ)) :=
  if encoded_query.isEmpty then some []
  else
    let selected_lists := encoded_query.map inverted_idx2
    let st := selected_lists.map (fun l => (l, 0))
    match intersectLoop Prod.fst (0, 0) (fuelFor st) st [] with
    | none => none
    | some emitted =>
      let docs_scores := emitted.map (fun q => (q.1, (q.2.map Prod.snd).sum))
      match compute_cosine_similarity encoded_query docs_scores squared_tfidf_per_document with
      | none => none
      | some all_scores => some (get_top_k all_scores k)

/-- The `__main__` pipeline for the first engine: `encode_query` then
`search_engine`.  When encoding fails Python passes `False`, which the falsy
check `if not encoded_query` at line 213 turns into `[]` without touching
the index. -/
def search_call (query : List String) (vocabulary : String → Option Nat)
    (inverted_idx : Nat → List Nat) : List Nat :=
  match encode_query query vocabulary with
  | none => []
  | some encoded => search_engine encoded inverted_idx

/-- The `__main__` pipeline for the second engine, analogously. -/
noncomputable def search_call_2 (query : List String)
    (vocabulary : String → Option Nat) (inverted_idx2 : Nat → List (Nat × ℝ))
    (squared_tfidf_per_document : Nat → Option ℝ) (k : Nat) :
    Option (List (Nat × ℝ)) :=
  match encode_query query vocabulary with
  | none => some []
  | some encoded =>
    search_engine_2 encoded inverted_idx2 squared_tfidf_per_document k

/-! Index construction (`create_inverted_idx`, lines 11-33, and
`create_inverted_idx_2`, lines 36-65).  A corpus is the numerically sorted
file list: a list of `(docId, contents)` pairs, where `contents` is the
pickled per-document dictionary (distinct keys).  `setdefault(key, []).append`
becomes a pointwise functional update. -/

/-- One document's contribution to the plain inverted index (the inner loop
of line 29-30): append `d` to the posting list of each of its keys. -/
def idx1_insert (m : Nat → List Nat) (d : Nat) (keys : List Nat) :
    Nat → List Nat :=
  keys.foldl (fun acc k => fun t => if t = k then acc k ++ [d] else acc t) m

/-- Model of `create_inverted_idx` (lines 11-33): fold documents in file
order. -/
def create_inverted_idx (corpus : List (Nat × List Nat)) : Nat → List Nat :=
  corpus.foldl (fun m doc => idx1_insert m doc.1 doc.2) (fun _ => [])

/-- One document's contribution to the raw weighted index (lines 56-57):
append `(d, tf)` to the posting list of each key. -/
def idx2_insert (m : Nat → List (Nat × ℚ)) (d : Nat) (tfs : List (Nat × ℚ)) :
    Nat → List (Nat × ℚ) :=
  tfs.foldl (fun acc kv => fun t => if t = kv.1 then acc kv.1 ++ [(d, kv.2)] else acc t) m

/-- First pass of `create_inverted_idx_2` (lines 51-57): the term-frequency
postings, before IDF weighting. -/
def create_inverted_idx_2_raw (corpus : List (Nat × List (Nat × ℚ))) :
    Nat → List (Nat × ℚ) :=
  corpus.foldl (fun m doc => idx2_insert m doc.1 doc.2) (fun _ => [])

/-- Second pass of `create_inverted_idx_2` (lines 60-62): after the whole
corpus has been scanned (`docs_count = corpus.length`), replace each stored
frequency by `tf * ln(docs_count / len(posting list))`; the list length is
the final one, the in-place substitution does not change it. -/
noncomputable def create_inverted_idx_2 (corpus : List (Nat × List (Nat × ℚ))) :
    Nat → List (Nat × ℝ) :=
  fun t =>
    (create_inverted_idx_2_raw corpus t).map (fun v =>
      (v.1, (v.2 : ℝ) *
        Real.log ((corpus.length : ℝ) / ((create_inverted_idx_2_raw corpus t).length : ℝ))))

/-- The score-adjustment loop of `search_engine_3` (lines 355-358): for each
validated criterion `(fieldIdx, value)` whose value occurs among the
normalized tokens of the candidate's corresponding field,
`total_score += total_score * 1/2`. -/
noncomputable def adjust_score (score : ℝ) (additional_info : List (Nat × String))
    (all_fields : Nat → List String) : ℝ :=
  additional_info.foldl
    (fun total item =>
      if item.2 ∈ all_fields item.1 then total + total * (1 / 2) else total)
    score

/-- The re-scoring pass of `search_engine_3` (lines 345-361): every candidate
from the plot-only engine keeps its document id and gets its cosine score
adjusted by the criteria. -/
noncomputable def search_engine_3_scores (plot_result : List (Nat × ℝ))
    (additional_info : List (Nat × String)) (doc_fields : Nat → Nat → List String) :
    List (Nat × ℝ) :=
  plot_result.map (fun p => (p.1, adjust_score p.2 additional_info (doc_fields p.1)))

/-! Helper lemmas. -/

theorem encode_query_eq_none (query : List String) (voc : String → Option Nat) :
    encode_query query voc = none ↔ ∃ tok ∈ query, voc tok = none := by
  induction query with
  | nil => simp [encode_query]
  | cons t rest ih =>
    cases h : voc t with
    | none => simp [encode_query, h]
    | some c => simp [encode_query, h, ih]

/-! Claim theorems. -/

/-- C2: the code has no guard for a zero or missing norm: with a candidate
document whose stored norm is `0` the division in
`compute_cosine_similarity` has denominator `sqrt 0 * sqrt 1 = 0`
(Python: `ZeroDivisionError`), and with a missing norm the lookup fails
(Python: `KeyError`); in both cases the call faults (`none`) instead of
excluding the document. -/
theorem compute_cosine_similarity_degenerate_fault :
    compute_cosine_similarity [5] [(1, 2)] (fun _ => some 0) = none ∧
    compute_cosine_similarity [5] [(1, 2)] (fun _ => none) = none := by
  constructor
  · simp [compute_cosine_similarity]
  · simp [compute_cosine_similarity]

/-- C3: when some query token is missing from the vocabulary, or the query is
empty, both engine pipelines return the empty result, for every inverted
index (so no posting list is consulted) and without faulting. -/
theorem search_call_empty_on_bad_query (query : List String)
    (voc : String → Option Nat) (inverted_idx : Nat → List Nat)
    (inverted_idx2 : Nat → List (Nat × ℝ)) (norms : Nat → Option ℝ) (k : Nat)
    (h : (∃ tok ∈ query, voc tok = none) ∨ query = []) :
    search_call query voc inverted_idx = [] ∧
    search_call_2 query voc inverted_idx2 norms k = some [] := by
  rcases h with h | h
  · have hnone : encode_query query voc = none := (encode_query_eq_none query voc).mpr h
    constructor
    · simp [search_call, hnone]
    · simp [search_call_2, hnone]
  · subst h
    constructor
    · simp [search_call, encode_query, search_engine]
    · simp [search_call_2, encode_query, search_engine_2]

theorem search_call_empty_on_bad_query_witness :
    search_call ["zzz"] (fun s => if s = "cat" then some 0 else none) (fun _ => [0]) = [] :=
  (search_call_empty_on_bad_query ["zzz"] (fun s => if s = "cat" then some 0 else none)
    (fun _ => [0]) (fun _ => []) (fun _ => none) 5
    (Or.inl ⟨"zzz", by simp, by simp⟩)).1

/-- C4 fails as stated: with the duplicated encoded query `[7, 7]` (one
distinct term, two tokens) the code divides by
`sqrt(norm) * sqrt(len(encoded_query)) = sqrt 1 * sqrt 2`, not by the
query-side norm `sqrt 1 * sqrt 1` built from the number of distinct terms. -/
theorem cosine_distinct_query_counterexample :
    compute_cosine_similarity [7, 7] [(1, 2)] (fun _ => some 1)
      ≠ some [(1, (2 : ℝ) / (Real.sqrt 1 * Real.sqrt (([7, 7] : List Nat).dedup.length : ℝ)))] := by
  have h2pos : (0:ℝ) < ((2:ℕ) : ℝ) := by norm_num
  have hne : Real.sqrt ((2:ℕ) : ℝ) ≠ 0 := ne_of_gt (Real.sqrt_pos.mpr h2pos)
  have hL : compute_cosine_similarity [7, 7] [(1, 2)] (fun _ => some 1)
      = some [(1, (2 : ℝ) / (Real.sqrt 1 * Real.sqrt ((2:ℕ) : ℝ)))] := by
    simp [compute_cosine_similarity, Real.sqrt_one, hne]
  rw [hL]
  have hdedup : (([7, 7] : List Nat).dedup.length : ℝ) = ((1:ℕ) : ℝ) := by
    norm_num [List.dedup_cons_of_mem, List.mem_singleton]
  rw [hdedup]
  intro hcontra
  have hpair := List.head_eq_of_cons_eq (Option.some.injEq _ _ |>.mp hcontra)
  have hsc : (2 : ℝ) / (Real.sqrt 1 * Real.sqrt ((2:ℕ) : ℝ))
      = (2 : ℝ) / (Real.sqrt 1 * Real.sqrt ((1:ℕ) : ℝ)) := congrArg Prod.snd hpair
  rw [Real.sqrt_one] at hsc
  simp only [Nat.cast_ofNat, Nat.cast_one, Real.sqrt_one, one_mul, mul_one, div_one] at hsc
  rw [Real.div_sqrt] at hsc
  have hsq := Real.sq_sqrt (by norm_num : (0:ℝ) ≤ 2)
  rw [hsc] at hsq
  norm_num at hsq

/-- C4 amended: for every candidate whose stored norm is present and
positive, and every non-empty encoded query, the similarity is
`score / (sqrt(norm) * sqrt(q))` where `q` is the TOTAL number of encoded
query tokens (`len(encoded_query)`, duplicates counted). -/
theorem compute_cosine_similarity_formula (encoded_query : List Nat)
    (docs_scores : List (Nat × ℝ)) (norms : Nat → Option ℝ)
    (hq : encoded_query ≠ [])
    (hn : ∀ p ∈ docs_scores, ∃ v, norms p.1 = some v ∧ 0 < v) :
    compute_cosine_similarity encoded_query docs_scores norms
      = some (docs_scores.map (fun p =>
          (p.1, p.2 / (Real.sqrt ((norms p.1).getD 0) * Real.sqrt (encoded_query.length : ℝ))))) := by
  induction docs_scores with
  | nil => simp [compute_cosine_similarity]
  | cons p rest ih =>
    obtain ⟨v, hv, hvpos⟩ := hn p (by simp)
    have hrest := ih (fun q hq2 => hn q (by simp [hq2]))
    have hlen : (0:ℝ) < (encoded_query.length : ℝ) := by
      have h1 : 0 < encoded_query.length := List.length_pos.mpr hq
      exact_mod_cast h1
    have hden : Real.sqrt v * Real.sqrt (encoded_query.length : ℝ) ≠ 0 :=
      ne_of_gt (mul_pos (Real.sqrt_pos.mpr hvpos) (Real.sqrt_pos.mpr hlen))
    simp [compute_cosine_similarity, hv, hrest, not_lt.mpr hvpos.le, hden]

theorem compute_cosine_similarity_formula_witness :
    ([0] : List Nat) ≠ [] ∧
    compute_cosine_similarity [0] [(1, 3)] (fun _ => some 1)
      = some [((1 : Nat), (3 : ℝ) / (Real.sqrt (((fun _ => some (1:ℝ)) 1).getD 0) * Real.sqrt (([0] : List Nat).length : ℝ)))] := by
  refine ⟨by simp, ?_⟩
  have h := compute_cosine_similarity_formula [0] [(1, 3)] (fun _ => some 1)
    (by simp) (fun p _ => ⟨1, rfl, by norm_num⟩)
  simpa using h

/-- C7: the refinement pass of `search_engine_3` multiplies each candidate's
cosine score by `3/2` once per matching criterion, so the final score is
`score * (3/2) ^ m` with `m` the number of matching criteria. -/
theorem search_engine_3_boost (plot_result : List (Nat × ℝ))
    (additional_info : List (Nat × String)) (doc_fields : Nat → Nat → List String) :
    search_engine_3_scores plot_result additional_info doc_fields
      = plot_result.map (fun p =>
          (p.1, p.2 * (3 / 2) ^ (additional_info.countP (fun item => decide (item.2 ∈ doc_fields p.1 item.1))))) := by
  have key : ∀ (info : List (Nat × String)) (s : ℝ) (fields : Nat → List String),
      adjust_score s info fields
        = s * (3 / 2) ^ (info.countP (fun item => decide (item.2 ∈ fields item.1))) := by
    intro info
    induction info with
    | nil => intro s fields; simp [adjust_score]
    | cons item rest ih =>
      intro s fields
      by_cases h : item.2 ∈ fields item.1
      · have h1 : adjust_score s (item :: rest) fields
            = adjust_score (s + s * (1 / 2)) rest fields := by
          simp [adjust_score, h]
        rw [h1, ih, List.countP_cons, if_pos (decide_eq_true h), pow_succ]
        ring
      · have h1 : adjust_score s (item :: rest) fields = adjust_score s rest fields := by
          simp [adjust_score, h]
        rw [h1, ih, List.countP_cons]
        simp [h]
  unfold search_engine_3_scores
  exact List.map_congr_left (fun p _ => by rw [key])

/-! `get_top_k`: lexicographic comparison facts and the top-k theorems. -/

theorem tuple_le_iff {β : Type} [LinearOrder β] (a b : β × Nat) :
    tuple_le a b = true ↔ a.1 < b.1 ∨ (a.1 = b.1 ∧ a.2 ≤ b.2) := by
  simp [tuple_le]

theorem tuple_le_trans {β : Type} [LinearOrder β] (a b c : β × Nat)
    (hab : tuple_le a b = true) (hbc : tuple_le b c = true) : tuple_le a c = true := by
  rw [tuple_le_iff] at hab hbc ⊢
  rcases hab with h1 | ⟨h1, h1n⟩ <;> rcases hbc with h2 | ⟨h2, h2n⟩
  · exact Or.inl (lt_trans h1 h2)
  · exact Or.inl (h2 ▸ h1)
  · exact Or.inl (h1 ▸ h2)
  · exact Or.inr ⟨h1.trans h2, le_trans h1n h2n⟩

theorem tuple_le_total {β : Type} [LinearOrder β] (a b : β × Nat) :
    (tuple_le a b || tuple_le b a) = true := by
  rcases lt_trichotomy a.1 b.1 with h | h | h
  · have hab : tuple_le a b = true := (tuple_le_iff a b).mpr (Or.inl h)
    simp [hab]
  · rcases Nat.le_total a.2 b.2 with hn | hn
    · have hab : tuple_le a b = true := (tuple_le_iff a b).mpr (Or.inr ⟨h, hn⟩)
      simp [hab]
    · have hba : tuple_le b a = true := (tuple_le_iff b a).mpr (Or.inr ⟨h.symm, hn⟩)
      simp [hba]
  · have hba : tuple_le b a = true := (tuple_le_iff b a).mpr (Or.inl h)
    simp [hba]

theorem tuple_le_fst_le {β : Type} [LinearOrder β] {a b : β × Nat}
    (h : tuple_le a b = true) : a.1 ≤ b.1 := by
  rw [tuple_le_iff] at h
  rcases h with h | ⟨h, _⟩
  · exact le_of_lt h
  · exact le_of_eq h

theorem get_top_k_eq (dic : List (Nat × ℚ)) (k : Nat) :
    get_top_k dic k
      = (((dic.map (fun p => (-p.2, p.1))).mergeSort tuple_le).take k).map
          (fun p => (p.2, -p.1)) := rfl

theorem dic_unswap (dic : List (Nat × ℚ)) :
    (dic.map (fun p => (-p.2, p.1))).map (fun p : ℚ × Nat => (p.2, -p.1)) = dic := by
  rw [List.map_map]
  have h : dic.map ((fun p : ℚ × Nat => (p.2, -p.1)) ∘ (fun p : Nat × ℚ => (-p.2, p.1)))
      = dic.map id := List.map_congr_left (fun p _ => by simp)
  rw [h, List.map_id]

/-- C5: `get_top_k` returns `min k n` entries, sorted descending by score, and
they are the `k` largest-scored entries: the remaining entries all score no
higher than any returned one; `k = 0` gives `[]` and `k ≥ n` returns the whole
mapping sorted. -/
theorem get_top_k_spec (dic : List (Nat × ℚ)) (k : Nat) :
    (get_top_k dic k).length = min k dic.length ∧
    (get_top_k dic k).Pairwise (fun a b => b.2 ≤ a.2) ∧
    (∃ rest, (get_top_k dic k ++ rest).Perm dic ∧
      ∀ a ∈ get_top_k dic k, ∀ b ∈ rest, b.2 ≤ a.2) ∧
    (k = 0 → get_top_k dic k = []) ∧
    (dic.length ≤ k → (get_top_k dic k).Perm dic) := by
  have hperm := List.mergeSort_perm (dic.map (fun p => (-p.2, p.1))) tuple_le
  set L := dic.map (fun p => (-p.2, p.1)) with hL
  set S := L.mergeSort tuple_le with hS
  have hlen : S.length = dic.length := by
    rw [hS, List.length_mergeSort, hL, List.length_map]
  have hsorted : S.Pairwise (fun a b => tuple_le a b = true) :=
    List.sorted_mergeSort (fun a b c => tuple_le_trans a b c) tuple_le_total L
  have hmapS : S.map (fun p : ℚ × Nat => (p.2, -p.1)) |>.Perm dic := by
    have h1 := hperm.map (fun p : ℚ × Nat => (p.2, -p.1))
    rw [dic_unswap dic] at h1
    exact h1
  refine ⟨?_, ?_, ?_, ?_, ?_⟩
  · rw [get_top_k_eq, List.length_map, List.length_take, hlen]
  · have h1 : (S.take k).Pairwise (fun a b => tuple_le a b = true) :=
      List.Pairwise.sublist (List.take_sublist k S) hsorted
    rw [get_top_k_eq, List.pairwise_map]
    exact h1.imp (fun hab => neg_le_neg (tuple_le_fst_le hab))
  · refine ⟨(S.drop k).map (fun p => (p.2, -p.1)), ?_, ?_⟩
    · rw [get_top_k_eq, ← List.map_append, List.take_append_drop]
      exact hmapS
    · intro a ha b hb
      rw [get_top_k_eq] at ha
      obtain ⟨x, hx, hxa⟩ := List.mem_map.mp ha
      obtain ⟨y, hy, hyb⟩ := List.mem_map.mp hb
      have hpw : List.Pairwise (fun a b => tuple_le a b = true) (S.take k ++ S.drop k) := by
        rw [List.take_append_drop]; exact hsorted
      have hxy : tuple_le x y = true :=
        (List.pairwise_append.mp hpw).2.2 x hx y hy
      rw [← hxa, ← hyb]
      exact neg_le_neg (tuple_le_fst_le hxy)
  · intro hk
    rw [get_top_k_eq, hk]
    simp
  · intro hk
    rw [get_top_k_eq, List.take_of_length_le (by rw [hlen]; exact hk)]
    exact hmapS

/-- C10: entries with equal score come out ordered by ascending key, because
`heapq.nsmallest` compares the `(-score, key)` tuples lexicographically; with
the dictionary's keys distinct the output order is fully determined. -/
theorem get_top_k_tiebreak (dic : List (Nat × ℚ)) (k : Nat)
    (hkeys : (dic.map Prod.fst).Nodup) :
    (get_top_k dic k).Pairwise (fun a b => b.2 < a.2 ∨ (a.2 = b.2 ∧ a.1 < b.1)) := by
  have hperm := List.mergeSort_perm (dic.map (fun p => (-p.2, p.1))) tuple_le
  set L := dic.map (fun p => (-p.2, p.1)) with hL
  set S := L.mergeSort tuple_le with hS
  have hsorted : S.Pairwise (fun a b => tuple_le a b = true) :=
    List.sorted_mergeSort (fun a b c => tuple_le_trans a b c) tuple_le_total L
  have hsndL : L.map Prod.snd = dic.map Prod.fst := by
    rw [hL, List.map_map]
    rfl
  have hsndS : (S.map Prod.snd).Nodup := by
    rw [(hperm.map Prod.snd).nodup_iff, hsndL]
    exact hkeys
  have hsndP : S.Pairwise (fun x y : ℚ × Nat => x.2 ≠ y.2) :=
    List.pairwise_map.mp hsndS
  have hboth := hsorted.and hsndP
  have htake := List.Pairwise.sublist (List.take_sublist k S) hboth
  rw [get_top_k_eq, List.pairwise_map]
  refine htake.imp ?_
  intro x y hxy
  obtain ⟨hle, hne⟩ := hxy
  rw [tuple_le_iff] at hle
  rcases hle with h | ⟨h1, h2⟩
  · exact Or.inl (by simpa using neg_lt_neg h)
  · exact Or.inr ⟨by rw [h1], lt_of_le_of_ne h2 hne⟩

theorem get_top_k_tiebreak_witness :
    (get_top_k [(2, (5 : ℚ)), (1, 5)] 2).Pairwise
      (fun a b => b.2 < a.2 ∨ (a.2 = b.2 ∧ a.1 < b.1)) :=
  get_top_k_tiebreak [(2, (5 : ℚ)), (1, 5)] 2 (by decide)

/-! Index construction: characterization of the fold-built postings. -/

theorem idx1_insert_cons (m : Nat → List Nat) (d k : Nat) (rest : List Nat) :
    idx1_insert m d (k :: rest)
      = idx1_insert (fun s => if s = k then m k ++ [d] else m s) d rest := rfl

theorem idx1_insert_not_mem (keys : List Nat) :
    ∀ (m : Nat → List Nat) (d t : Nat), t ∉ keys → idx1_insert m d keys t = m t := by
  induction keys with
  | nil => intro m d t _; rfl
  | cons k rest ih =>
    intro m d t h
    rw [idx1_insert_cons, ih _ d t (fun hc => h (List.mem_cons_of_mem _ hc))]
    exact if_neg (fun hc : t = k => h (hc ▸ List.mem_cons_self _ _))

theorem idx1_insert_eq (keys : List Nat) :
    ∀ (m : Nat → List Nat) (d t : Nat), keys.Nodup →
      idx1_insert m d keys t = m t ++ (if t ∈ keys then [d] else []) := by
  induction keys with
  | nil => intro m d t _; simp [idx1_insert]
  | cons k rest ih =>
    intro m d t hnd
    obtain ⟨hk, hrest⟩ := List.nodup_cons.mp hnd
    rw [idx1_insert_cons]
    by_cases ht : t = k
    · subst ht
      rw [idx1_insert_not_mem rest _ d t hk]
      simp
    · rw [ih _ d t hrest]
      simp [ht, List.mem_cons]

theorem create_inverted_idx_fold (corpus : List (Nat × List Nat)) :
    ∀ (m : Nat → List Nat) (t : Nat), (∀ doc ∈ corpus, doc.2.Nodup) →
      (corpus.foldl (fun m doc => idx1_insert m doc.1 doc.2) m) t
        = m t ++ corpus.filterMap (fun doc => if t ∈ doc.2 then some doc.1 else none) := by
  induction corpus with
  | nil => intro m t _; simp
  | cons doc rest ih =>
    intro m t hnd
    rw [List.foldl_cons, ih _ t (fun d hd => hnd d (List.mem_cons_of_mem _ hd)),
        idx1_insert_eq _ _ _ _ (hnd doc (List.mem_cons_self _ _))]
    by_cases ht : t ∈ doc.2 <;> simp [List.filterMap_cons, ht]

theorem create_inverted_idx_eq (corpus : List (Nat × List Nat)) (t : Nat)
    (hnd : ∀ doc ∈ corpus, doc.2.Nodup) :
    create_inverted_idx corpus t
      = corpus.filterMap (fun doc => if t ∈ doc.2 then some doc.1 else none) := by
  rw [create_inverted_idx, create_inverted_idx_fold corpus _ t hnd]
  simp

theorem idx2_insert_cons (m : Nat → List (Nat × ℚ)) (d : Nat) (kv : Nat × ℚ)
    (rest : List (Nat × ℚ)) :
    idx2_insert m d (kv :: rest)
      = idx2_insert (fun s => if s = kv.1 then m kv.1 ++ [(d, kv.2)] else m s) d rest := rfl

theorem idx2_insert_not_mem (tfs : List (Nat × ℚ)) :
    ∀ (m : Nat → List (Nat × ℚ)) (d t : Nat), t ∉ tfs.map Prod.fst →
      idx2_insert m d tfs t = m t := by
  induction tfs with
  | nil => intro m d t _; rfl
  | cons kv rest ih =>
    intro m d t h
    rw [List.map_cons] at h
    rw [idx2_insert_cons, ih _ d t (fun hc => h (List.mem_cons_of_mem _ hc))]
    exact if_neg (fun hc : t = kv.1 => h (hc ▸ List.mem_cons_self _ _))

theorem idx2_insert_eq (tfs : List (Nat × ℚ)) :
    ∀ (m : Nat → List (Nat × ℚ)) (d t : Nat), (tfs.map Prod.fst).Nodup →
      idx2_insert m d tfs t
        = m t ++ ((List.lookup t tfs).map (fun f => (d, f))).toList := by
  induction tfs with
  | nil => intro m d t _; simp [idx2_insert]
  | cons kv rest ih =>
    intro m d t hnd
    obtain ⟨k0, v0⟩ := kv
    rw [List.map_cons] at hnd
    obtain ⟨hk, hrest⟩ := List.nodup_cons.mp hnd
    rw [idx2_insert_cons]
    by_cases ht : t = k0
    · subst ht
      rw [idx2_insert_not_mem rest _ d _ hk]
      simp [List.lookup_cons]
    · rw [ih _ d t hrest]
      have hbeq : (t == k0) = false := by
        simp [ht]
      simp [List.lookup_cons, hbeq, ht]

theorem create_inverted_idx_2_fold (corpus : List (Nat × List (Nat × ℚ))) :
    ∀ (m : Nat → List (Nat × ℚ)) (t : Nat), (∀ doc ∈ corpus, (doc.2.map Prod.fst).Nodup) →
      (corpus.foldl (fun m doc => idx2_insert m doc.1 doc.2) m) t
        = m t ++ corpus.filterMap (fun doc => (List.lookup t doc.2).map (fun f => (doc.1, f))) := by
  induction corpus with
  | nil => intro m t _; simp
  | cons doc rest ih =>
    intro m t hnd
    rw [List.foldl_cons, ih _ t (fun d hd => hnd d (List.mem_cons_of_mem _ hd)),
        idx2_insert_eq _ _ _ _ (hnd doc (List.mem_cons_self _ _))]
    cases hl : List.lookup t doc.2 <;> simp [List.filterMap_cons, hl]

theorem create_inverted_idx_2_raw_eq (corpus : List (Nat × List (Nat × ℚ))) (t : Nat)
    (hnd : ∀ doc ∈ corpus, (doc.2.map Prod.fst).Nodup) :
    create_inverted_idx_2_raw corpus t
      = corpus.filterMap (fun doc => (List.lookup t doc.2).map (fun f => (doc.1, f))) := by
  rw [create_inverted_idx_2_raw, create_inverted_idx_2_fold corpus _ t hnd]
  simp

theorem length_filterMap_eq_countP {γ δ : Type} (g : γ → Option δ) (l : List γ) :
    (l.filterMap g).length = l.countP (fun x => (g x).isSome) := by
  induction l with
  | nil => rfl
  | cons x rest ih =>
    cases hx : g x <;> simp [List.filterMap_cons, hx, List.countP_cons, ih]

theorem filterMap_keys_sublist {γ δ : Type} (g : γ → Option δ) (f : γ → Nat) (f2 : δ → Nat)
    (h : ∀ x y, g x = some y → f2 y = f x) (l : List γ) :
    ((l.filterMap g).map f2).Sublist (l.map f) := by
  induction l with
  | nil => simp
  | cons x rest ih =>
    cases hx : g x with
    | none =>
      rw [List.filterMap_cons_none hx, List.map_cons]
      exact ih.cons _
    | some y =>
      rw [List.filterMap_cons_some hx, List.map_cons, List.map_cons, h x y hx]
      exact ih.cons₂ _

/-- C6: `create_inverted_idx_2` stores, for each term and each document whose
frequency map contains the term, the weight
`tf * ln(docs_count / df)` where `docs_count` is the total number of
documents scanned and `df` is the final length of the term's posting list
(the number of documents containing the term over the whole corpus), computed
only after the full corpus has been folded. -/
theorem create_inverted_idx_2_tfidf (corpus : List (Nat × List (Nat × ℚ))) (t : Nat)
    (hkeys : ∀ doc ∈ corpus, (doc.2.map Prod.fst).Nodup) :
    create_inverted_idx_2_raw corpus t
        = corpus.filterMap (fun doc => (List.lookup t doc.2).map (fun f => (doc.1, f))) ∧
    (create_inverted_idx_2_raw corpus t).length
        = corpus.countP (fun doc => (List.lookup t doc.2).isSome) ∧
    create_inverted_idx_2 corpus t
        = (create_inverted_idx_2_raw corpus t).map (fun v =>
            (v.1, (v.2 : ℝ) *
              Real.log ((corpus.length : ℝ) / ((create_inverted_idx_2_raw corpus t).length : ℝ)))) := by
  refine ⟨create_inverted_idx_2_raw_eq corpus t hkeys, ?_, rfl⟩
  rw [create_inverted_idx_2_raw_eq corpus t hkeys, length_filterMap_eq_countP]
  simp

theorem create_inverted_idx_2_tfidf_witness :
    create_inverted_idx_2_raw [(1, [(7, 2)]), (2, [(7, 1), (9, 4)])] 7
      = [(1, 2), (2, 1)] := by
  have h := create_inverted_idx_2_tfidf [(1, [(7, 2)]), (2, [(7, 1), (9, 4)])] 7 (by decide)
  rw [h.1]
  decide

/-- C8: when the corpus is processed in ascending DocumentId order, every
posting list of the plain index and every weighted posting list of the
TF-IDF index is strictly ascending in DocumentId (hence duplicate-free). -/
theorem inverted_idx_postings_sorted (corpus1 : List (Nat × List Nat))
    (corpus2 : List (Nat × List (Nat × ℚ))) (t : Nat)
    (h1 : (corpus1.map Prod.fst).Pairwise (· < ·))
    (h1k : ∀ doc ∈ corpus1, doc.2.Nodup)
    (h2 : (corpus2.map Prod.fst).Pairwise (· < ·))
    (h2k : ∀ doc ∈ corpus2, (doc.2.map Prod.fst).Nodup) :
    (create_inverted_idx corpus1 t).Pairwise (· < ·) ∧
    ((create_inverted_idx_2 corpus2 t).map Prod.fst).Pairwise (· < ·) := by
  constructor
  · rw [create_inverted_idx_eq corpus1 t h1k, ← List.map_id
      (corpus1.filterMap (fun doc => if t ∈ doc.2 then some doc.1 else none))]
    refine List.Pairwise.sublist (filterMap_keys_sublist _ Prod.fst id ?_ corpus1) h1
    intro x y hy
    by_cases hx : t ∈ x.2 <;> simp [hx] at hy
    exact hy.symm
  · have hfst : (create_inverted_idx_2 corpus2 t).map Prod.fst
        = (create_inverted_idx_2_raw corpus2 t).map Prod.fst := by
      rw [create_inverted_idx_2, List.map_map]
      exact List.map_congr_left (fun v _ => rfl)
    rw [hfst, create_inverted_idx_2_raw_eq corpus2 t h2k]
    refine List.Pairwise.sublist (filterMap_keys_sublist _ Prod.fst Prod.fst ?_ corpus2) h2
    intro x y hy
    cases hl : List.lookup t x.2 <;> simp [hl] at hy
    rw [← hy]

theorem inverted_idx_postings_sorted_witness :
    (create_inverted_idx [(1, [7]), (2, [7, 9])] 7).Pairwise (· < ·) :=
  (inverted_idx_postings_sorted [(1, [7]), (2, [7, 9])]
    [(1, [(7, 2)]), (2, [(7, 1)])] 7 (by decide) (by decide) (by decide) (by decide)).1

/-! The intersection loop: guard characterizations, maximum facts, cursor
facts on sorted lists, and the decreasing measure. -/

theorem inBounds_iff {α : Type} (st : List (List α × Nat)) :
    inBounds st = true ↔ ∀ p ∈ st, p.2 < p.1.length := by
  simp [inBounds]

theorem allAtMax_iff {α : Type} (key : α → Nat) (d0 : α) (st : List (List α × Nat)) :
    allAtMax key d0 st = true ↔ ∀ p ∈ st, key (currentOf d0 p) = maxDoc key d0 st := by
  simp [allAtMax]

theorem le_foldl_max (l : List Nat) : ∀ a : Nat, a ≤ l.foldl max a := by
  induction l with
  | nil => intro a; exact le_refl a
  | cons y rest ih => intro a; exact le_trans (le_max_left a y) (ih (max a y))

theorem foldl_max_le_mem {l : List Nat} {x : Nat} (hx : x ∈ l) :
    ∀ a : Nat, x ≤ l.foldl max a := by
  induction l with
  | nil => cases hx
  | cons y rest ih =>
    intro a
    rcases List.mem_cons.mp hx with h | h
    · subst h
      exact le_trans (le_max_right a x) (le_foldl_max rest (max a x))
    · exact ih h (max a y)

theorem foldl_max_eq_or_mem (l : List Nat) : ∀ a : Nat, l.foldl max a = a ∨ l.foldl max a ∈ l := by
  induction l with
  | nil => intro a; exact Or.inl rfl
  | cons y rest ih =>
    intro a
    rw [List.foldl_cons]
    rcases ih (max a y) with h | h
    · rcases Nat.le_total a y with hy | hy
      · rw [h, max_eq_right hy]
        exact Or.inr (List.mem_cons_self _ _)
      · rw [h, max_eq_left hy]
        exact Or.inl rfl
    · exact Or.inr (List.mem_cons_of_mem _ h)

theorem le_maxDoc {α : Type} (key : α → Nat) (d0 : α) {st : List (List α × Nat)}
    {p : List α × Nat} (hp : p ∈ st) : key (currentOf d0 p) ≤ maxDoc key d0 st := by
  show key (currentOf d0 p) ≤ (st.map (fun q => key (currentOf d0 q))).foldl max 0
  exact foldl_max_le_mem (List.mem_map_of_mem (fun q => key (currentOf d0 q)) hp) 0

theorem maxDoc_attained {α : Type} (key : α → Nat) (d0 : α) {st : List (List α × Nat)}
    (hne : st ≠ []) : ∃ p ∈ st, key (currentOf d0 p) = maxDoc key d0 st := by
  rcases foldl_max_eq_or_mem (st.map (fun p => key (currentOf d0 p))) 0 with h | h
  · obtain ⟨p, hp⟩ := List.exists_mem_of_ne_nil st hne
    have h1 := le_maxDoc key d0 hp
    have h2 : maxDoc key d0 st = 0 := h
    exact ⟨p, hp, by omega⟩
  · obtain ⟨p, hp, hpv⟩ := List.mem_map.mp h
    exact ⟨p, hp, hpv⟩

theorem key_lt_of_mem_take {α : Type} (key : α → Nat) (d0 : α) {l : List α} {i : Nat} {d : Nat}
    (hs : (l.map key).Pairwise (· < ·)) (hi : i < l.length)
    (hd : d ∈ (l.take i).map key) : d < key (l.getD i d0) := by
  obtain ⟨a, ha, rfl⟩ := List.mem_map.mp hd
  obtain ⟨j, hj, rfl⟩ := List.mem_take_iff_getElem.mp ha
  have hjl : j < l.length := lt_of_lt_of_le hj (min_le_right _ _)
  have hji : j < i := lt_of_lt_of_le hj (min_le_left _ _)
  have := List.pairwise_iff_getElem.mp hs j i (by simpa using hjl) (by simpa using hi) hji
  rw [List.getElem_map, List.getElem_map] at this
  rwa [List.getD_eq_getElem l d0 hi]

theorem mem_take_of_key_lt {α : Type} (key : α → Nat) (d0 : α) {l : List α} {i : Nat} {d : Nat}
    (hs : (l.map key).Pairwise (· < ·)) (hi : i < l.length)
    (hd : d ∈ l.map key) (hlt : d < key (l.getD i d0)) : d ∈ (l.take i).map key := by
  obtain ⟨a, ha, rfl⟩ := List.mem_map.mp hd
  obtain ⟨j, hjl, rfl⟩ := List.mem_iff_getElem.mp ha
  rcases Nat.lt_or_ge j i with hji | hji
  · exact List.mem_map_of_mem key
      (List.mem_take_iff_getElem.mpr ⟨j, lt_min hji hjl, rfl⟩)
  · exfalso
    rw [List.getD_eq_getElem l d0 hi] at hlt
    rcases Nat.eq_or_lt_of_le hji with hji2 | hji2
    · subst hji2
      exact lt_irrefl _ hlt
    · have := List.pairwise_iff_getElem.mp hs i j (by simpa using hi) (by simpa using hjl) hji2
      rw [List.getElem_map, List.getElem_map] at this
      omega

theorem key_mem_of_cursor {α : Type} (key : α → Nat) (d0 : α) {l : List α} {i : Nat}
    (hi : i < l.length) : key (l.getD i d0) ∈ l.map key := by
  rw [List.getD_eq_getElem l d0 hi]
  exact List.mem_map_of_mem key (List.getElem_mem hi)

theorem take_succ_getD {α : Type} (d0 : α) {l : List α} {i : Nat} (hi : i < l.length) :
    l.take (i + 1) = l.take i ++ [l.getD i d0] := by
  rw [List.take_succ, List.getElem?_eq_getElem hi, List.getD_eq_getElem l d0 hi]
  rfl

theorem mem_map_take_succ {α : Type} (key : α → Nat) {l : List α} {i : Nat} {d : Nat}
    (h : d ∈ (l.take i).map key) : d ∈ (l.take (i + 1)).map key := by
  obtain ⟨a, ha, rfl⟩ := List.mem_map.mp h
  refine List.mem_map_of_mem key ?_
  have h1 : l.take i = (l.take (i + 1)).take i := by
    rw [List.take_take]
    congr 1
    omega
  rw [h1] at ha
  exact (List.take_prefix i _).subset ha

theorem meas_advanceAll_lt {α : Type} (st : List (List α × Nat)) (hne : st ≠ [])
    (hb : ∀ p ∈ st, p.2 < p.1.length) : meas (advanceAll st) < meas st := by
  have h1 : meas (advanceAll st) = (st.map (fun p => p.1.length - (p.2 + 1))).sum := by
    rw [meas, advanceAll, List.map_map]
    rfl
  obtain ⟨p, hp⟩ := List.exists_mem_of_ne_nil st hne
  rw [h1, meas]
  refine List.sum_lt_sum _ _ (fun q _ => by omega) ⟨p, hp, ?_⟩
  have := hb p hp
  omega

theorem meas_advanceLagging_lt {α : Type} (key : α → Nat) (d0 : α) (m : Nat)
    (st : List (List α × Nat)) (hb : ∀ p ∈ st, p.2 < p.1.length)
    (p0 : List α × Nat) (hp0 : p0 ∈ st) (hp0ne : key (currentOf d0 p0) ≠ m) :
    meas (advanceLagging key d0 m st) < meas st := by
  have h1 : meas (advanceLagging key d0 m st)
      = (st.map (fun p =>
          p.1.length - (if key (currentOf d0 p) == m then p.2 else p.2 + 1))).sum := by
    rw [meas, advanceLagging, List.map_map]
    congr 1
    refine List.map_congr_left (fun p _ => ?_)
    by_cases h : key (currentOf d0 p) = m <;> simp [h]
  rw [h1, meas]
  refine List.sum_lt_sum _ _ (fun q hq => ?_) ⟨p0, hp0, ?_⟩
  · by_cases h : key (currentOf d0 q) = m
    · simp [h]
    · rw [beq_eq_false_iff_ne.mpr h]
      simp only [Bool.false_eq_true, if_false]
      omega
  · rw [beq_eq_false_iff_ne.mpr hp0ne]
    have := hb p0 hp0
    simp
    omega

/-- Invariant of the intersection loop, for posting lists strictly sorted on
keys: cursors stay in range, every emitted key has been passed by every
cursor, every common key not yet emitted has been passed by no cursor, and
the emitted keys are strictly increasing. -/
def LoopInv {α : Type} (key : α → Nat) (st : List (List α × Nat))
    (acc : List (Nat × List α)) : Prop :=
  (∀ p ∈ st, p.2 ≤ p.1.length) ∧
  (∀ e ∈ acc, ∀ p ∈ st, e.1 ∈ (p.1.take p.2).map key) ∧
  (∀ d, (∀ p ∈ st, d ∈ p.1.map key) → d ∉ acc.map Prod.fst →
    ∀ p ∈ st, d ∉ (p.1.take p.2).map key) ∧
  (acc.map Prod.fst).Pairwise (· < ·)

theorem intersectLoop_total {α : Type} (key : α → Nat) (d0 : α) :
    ∀ (fuel : Nat) (st : List (List α × Nat)) (acc : List (Nat × List α)),
      st ≠ [] → (∀ p ∈ st, p.2 ≤ p.1.length) → meas st < fuel →
      ∃ res, intersectLoop key d0 fuel st acc = some res := by
  intro fuel
  induction fuel with
  | zero => intro st acc _ _ h; exact absurd h (Nat.not_lt_zero _)
  | succ fuel ih =>
    intro st acc hne hb hf
    by_cases hbound : inBounds st = true
    · have hstrict : ∀ p ∈ st, p.2 < p.1.length := (inBounds_iff st).mp hbound
      by_cases hall : allAtMax key d0 st = true
      · have hne2 : advanceAll st ≠ [] := by
          simp only [advanceAll, ne_eq, List.map_eq_nil_iff]
          exact hne
        have hb2 : ∀ p ∈ advanceAll st, p.2 ≤ p.1.length := by
          intro p hp
          obtain ⟨q, hq, rfl⟩ := List.mem_map.mp hp
          exact hstrict q hq
        have hf2 : meas (advanceAll st) < fuel :=
          lt_of_lt_of_le (meas_advanceAll_lt st hne hstrict) (Nat.lt_succ_iff.mp hf)
        obtain ⟨res, hres⟩ := ih (advanceAll st)
          (acc ++ [(maxDoc key d0 st, st.map (currentOf d0))]) hne2 hb2 hf2
        refine ⟨res, ?_⟩
        simp only [intersectLoop, if_pos hbound, if_pos hall]
        exact hres
      · have hex : ∃ p0 ∈ st, key (currentOf d0 p0) ≠ maxDoc key d0 st := by
          have h1 : ¬ ∀ p ∈ st, key (currentOf d0 p) = maxDoc key d0 st := by
            rw [← allAtMax_iff key d0 st]
            exact hall
          push_neg at h1
          exact h1
        obtain ⟨p0, hp0, hp0ne⟩ := hex
        have hne2 : advanceLagging key d0 (maxDoc key d0 st) st ≠ [] := by
          simp only [advanceLagging, ne_eq, List.map_eq_nil_iff]
          exact hne
        have hb2 : ∀ p ∈ advanceLagging key d0 (maxDoc key d0 st) st, p.2 ≤ p.1.length := by
          intro p hp
          obtain ⟨q, hq, rfl⟩ := List.mem_map.mp hp
          by_cases h : key (currentOf d0 q) = maxDoc key d0 st <;> simp [h]
          · exact le_of_lt (hstrict q hq)
          · exact hstrict q hq
        have hf2 : meas (advanceLagging key d0 (maxDoc key d0 st) st) < fuel :=
          lt_of_lt_of_le
            (meas_advanceLagging_lt key d0 (maxDoc key d0 st) st hstrict p0 hp0 hp0ne)
            (Nat.lt_succ_iff.mp hf)
        obtain ⟨res, hres⟩ := ih (advanceLagging key d0 (maxDoc key d0 st) st) acc hne2 hb2 hf2
        refine ⟨res, ?_⟩
        simp only [intersectLoop, if_pos hbound, if_neg hall]
        exact hres
    · exact ⟨acc, by simp only [intersectLoop, if_neg hbound]⟩

theorem take_succ_currentOf {α : Type} (d0 : α) {q : List α × Nat} (h : q.2 < q.1.length) :
    q.1.take (q.2 + 1) = q.1.take q.2 ++ [currentOf d0 q] :=
  take_succ_getD d0 h

theorem advanceLagging_mem_cases {α : Type} (key : α → Nat) (d0 : α) (m : Nat)
    (q : List α × Nat) :
    ((if key (currentOf d0 q) == m then q else (q.1, q.2 + 1)) = q ∧
      key (currentOf d0 q) = m) ∨
    ((if key (currentOf d0 q) == m then q else (q.1, q.2 + 1)) = (q.1, q.2 + 1) ∧
      key (currentOf d0 q) ≠ m) := by
  by_cases h : key (currentOf d0 q) = m
  · exact Or.inl ⟨by simp [h], h⟩
  · exact Or.inr ⟨by simp [h], h⟩

theorem intersectLoop_spec {α : Type} (key : α → Nat) (d0 : α) :
    ∀ (fuel : Nat) (st : List (List α × Nat)) (acc : List (Nat × List α)),
      st ≠ [] →
      (∀ p ∈ st, (p.1.map key).Pairwise (· < ·)) →
      LoopInv key st acc →
      meas st < fuel →
      ∃ res, intersectLoop key d0 fuel st acc = some res ∧
        (res.map Prod.fst).Pairwise (· < ·) ∧
        (∀ d, d ∈ res.map Prod.fst ↔
          (d ∈ acc.map Prod.fst ∨ ∀ p ∈ st, d ∈ p.1.map key)) := by
  intro fuel
  induction fuel with
  | zero => intro st acc _ _ _ h; exact absurd h (Nat.not_lt_zero _)
  | succ fuel ih =>
    intro st acc hne hsort hinv hfuel
    obtain ⟨hbnd, hemit, hcommon, haccs⟩ := hinv
    by_cases hb : inBounds st = true
    · have hcur : ∀ p ∈ st, p.2 < p.1.length := (inBounds_iff st).mp hb
      by_cases ha : allAtMax key d0 st = true
      · -- all cursors point at the maximum: it is emitted, all cursors advance
        have hall : ∀ p ∈ st, key (currentOf d0 p) = maxDoc key d0 st :=
          (allAtMax_iff key d0 st).mp ha
        have hne2 : advanceAll st ≠ [] := by
          simp only [advanceAll, ne_eq, List.map_eq_nil_iff]
          exact hne
        have hsort2 : ∀ p ∈ advanceAll st, (p.1.map key).Pairwise (· < ·) := by
          intro p hp
          obtain ⟨q, hq, rfl⟩ := List.mem_map.mp hp
          exact hsort q hq
        have hbnd2 : ∀ p ∈ advanceAll st, p.2 ≤ p.1.length := by
          intro p hp
          obtain ⟨q, hq, rfl⟩ := List.mem_map.mp hp
          exact hcur q hq
        have hemit2 : ∀ e ∈ acc ++ [(maxDoc key d0 st, st.map (currentOf d0))],
            ∀ p ∈ advanceAll st, e.1 ∈ (p.1.take p.2).map key := by
          intro e he p hp
          obtain ⟨q, hq, rfl⟩ := List.mem_map.mp hp
          show e.1 ∈ (q.1.take (q.2 + 1)).map key
          rw [take_succ_currentOf d0 (hcur q hq), List.map_append]
          rcases List.mem_append.mp he with he | he
          · exact List.mem_append_left _ (hemit e he q hq)
          · have he2 : e = (maxDoc key d0 st, st.map (currentOf d0)) := by
              simpa using he
            refine List.mem_append_right _ ?_
            rw [he2]
            simp only [List.map_cons, List.map_nil, List.mem_singleton]
            exact (hall q hq).symm
        have hcommon2 : ∀ d, (∀ p ∈ advanceAll st, d ∈ p.1.map key) →
            d ∉ ((acc ++ [(maxDoc key d0 st, st.map (currentOf d0))]).map Prod.fst) →
            ∀ p ∈ advanceAll st, d ∉ (p.1.take p.2).map key := by
          intro d hdall hdacc p hp
          obtain ⟨q, hq, rfl⟩ := List.mem_map.mp hp
          show d ∉ (q.1.take (q.2 + 1)).map key
          have hdall2 : ∀ r ∈ st, d ∈ r.1.map key := by
            intro r hr
            exact hdall (r.1, r.2 + 1) (List.mem_map_of_mem _ hr)
          have hdacc2 : d ∉ acc.map Prod.fst := by
            intro hc
            exact hdacc (by rw [List.map_append]; exact List.mem_append_left _ hc)
          have hdm : d ≠ maxDoc key d0 st := by
            intro hc
            apply hdacc
            rw [List.map_append]
            refine List.mem_append_right _ ?_
            simp [hc]
          rw [take_succ_currentOf d0 (hcur q hq), List.map_append]
          intro hmem
          rcases List.mem_append.mp hmem with hmem | hmem
          · exact hcommon d hdall2 hdacc2 q hq hmem
          · have hdq : d = key (currentOf d0 q) := by simpa using hmem
            rw [hall q hq] at hdq
            exact hdm hdq
        have haccs2 : ((acc ++ [(maxDoc key d0 st, st.map (currentOf d0))]).map Prod.fst).Pairwise (· < ·) := by
          rw [List.map_append, List.pairwise_append]
          refine ⟨haccs, by simp, ?_⟩
          intro a hax b hbx
          obtain ⟨p1, hp1⟩ := List.exists_mem_of_ne_nil st hne
          have hbm : b = maxDoc key d0 st := by simpa using hbx
          subst hbm
          obtain ⟨e, he, rfl⟩ := List.mem_map.mp hax
          have hin := hemit e he p1 hp1
          have hlt := key_lt_of_mem_take key d0 (hsort p1 hp1) (hcur p1 hp1) hin
          have hget : key (p1.1.getD p1.2 d0) = maxDoc key d0 st := hall p1 hp1
          rw [hget] at hlt
          exact hlt
        have hmeas2 : meas (advanceAll st) < fuel :=
          lt_of_lt_of_le (meas_advanceAll_lt st hne hcur) (Nat.lt_succ_iff.mp hfuel)
        obtain ⟨res, hres, hsortedRes, hmem⟩ := ih (advanceAll st)
          (acc ++ [(maxDoc key d0 st, st.map (currentOf d0))]) hne2 hsort2
          ⟨hbnd2, hemit2, hcommon2, haccs2⟩ hmeas2
        refine ⟨res, ?_, hsortedRes, ?_⟩
        · simp only [intersectLoop, if_pos hb, if_pos ha]
          exact hres
        · intro d
          rw [hmem d]
          constructor
          · rintro (hd | hd)
            · rw [List.map_append] at hd
              rcases List.mem_append.mp hd with hd | hd
              · exact Or.inl hd
              · refine Or.inr (fun p hp => ?_)
                have hdm : d = maxDoc key d0 st := by simpa using hd
                subst hdm
                have hget : key (p.1.getD p.2 d0) = maxDoc key d0 st := hall p hp
                rw [← hget]
                exact key_mem_of_cursor key d0 (hcur p hp)
            · refine Or.inr (fun p hp => ?_)
              exact hd (p.1, p.2 + 1) (List.mem_map_of_mem _ hp)
          · rintro (hd | hd)
            · refine Or.inl ?_
              rw [List.map_append]
              exact List.mem_append_left _ hd
            · refine Or.inr (fun p hp => ?_)
              obtain ⟨q, hq, rfl⟩ := List.mem_map.mp hp
              exact hd q hq
      · -- some cursor lags behind the maximum: advance exactly the laggers
        have hex : ∃ p0 ∈ st, key (currentOf d0 p0) ≠ maxDoc key d0 st := by
          have h1 : ¬ ∀ p ∈ st, key (currentOf d0 p) = maxDoc key d0 st := by
            rw [← allAtMax_iff key d0 st]
            exact ha
          push_neg at h1
          exact h1
        obtain ⟨p0, hp0, hp0ne⟩ := hex
        obtain ⟨pM, hpM, hpMeq⟩ := maxDoc_attained key d0 hne
        have hne2 : advanceLagging key d0 (maxDoc key d0 st) st ≠ [] := by
          simp only [advanceLagging, ne_eq, List.map_eq_nil_iff]
          exact hne
        have hsort2 : ∀ p ∈ advanceLagging key d0 (maxDoc key d0 st) st,
            (p.1.map key).Pairwise (· < ·) := by
          intro p hp
          obtain ⟨q, hq, rfl⟩ := List.mem_map.mp hp
          rcases advanceLagging_mem_cases key d0 (maxDoc key d0 st) q with ⟨hqeq, _⟩ | ⟨hqeq, _⟩ <;>
            rw [hqeq]
          · exact hsort q hq
          · exact hsort q hq
        have hbnd2 : ∀ p ∈ advanceLagging key d0 (maxDoc key d0 st) st, p.2 ≤ p.1.length := by
          intro p hp
          obtain ⟨q, hq, rfl⟩ := List.mem_map.mp hp
          rcases advanceLagging_mem_cases key d0 (maxDoc key d0 st) q with ⟨hqeq, _⟩ | ⟨hqeq, _⟩ <;>
            rw [hqeq]
          · exact le_of_lt (hcur q hq)
          · exact hcur q hq
        have hdall_of : ∀ d, (∀ p ∈ advanceLagging key d0 (maxDoc key d0 st) st, d ∈ p.1.map key) →
            ∀ p ∈ st, d ∈ p.1.map key := by
          intro d hdall p hp
          have hmem := hdall _ (List.mem_map_of_mem _ hp)
          rcases advanceLagging_mem_cases key d0 (maxDoc key d0 st) p with ⟨hqeq, _⟩ | ⟨hqeq, _⟩ <;>
            rw [hqeq] at hmem
          · exact hmem
          · exact hmem
        have hemit2 : ∀ e ∈ acc, ∀ p ∈ advanceLagging key d0 (maxDoc key d0 st) st,
            e.1 ∈ (p.1.take p.2).map key := by
          intro e he p hp
          obtain ⟨q, hq, rfl⟩ := List.mem_map.mp hp
          rcases advanceLagging_mem_cases key d0 (maxDoc key d0 st) q with ⟨hqeq, _⟩ | ⟨hqeq, _⟩ <;>
            rw [hqeq]
          · exact hemit e he q hq
          · exact mem_map_take_succ key (hemit e he q hq)
        have hcommon2 : ∀ d, (∀ p ∈ advanceLagging key d0 (maxDoc key d0 st) st, d ∈ p.1.map key) →
            d ∉ acc.map Prod.fst →
            ∀ p ∈ advanceLagging key d0 (maxDoc key d0 st) st, d ∉ (p.1.take p.2).map key := by
          intro d hdall hdacc p hp
          obtain ⟨q, hq, rfl⟩ := List.mem_map.mp hp
          have hdall2 := hdall_of d hdall
          rcases advanceLagging_mem_cases key d0 (maxDoc key d0 st) q with ⟨hqeq, _⟩ | ⟨hqeq, hqm⟩ <;>
            rw [hqeq]
          · exact hcommon d hdall2 hdacc q hq
          · show d ∉ (q.1.take (q.2 + 1)).map key
            rw [take_succ_currentOf d0 (hcur q hq), List.map_append]
            intro hmem
            rcases List.mem_append.mp hmem with hmem | hmem
            · exact hcommon d hdall2 hdacc q hq hmem
            · have hdq : d = key (currentOf d0 q) := by simpa using hmem
              have hlt : d < maxDoc key d0 st := by
                rw [hdq]
                exact lt_of_le_of_ne (le_maxDoc key d0 hq) hqm
              have hget : key (pM.1.getD pM.2 d0) = maxDoc key d0 st := hpMeq
              have hdpM : d ∈ (pM.1.take pM.2).map key :=
                mem_take_of_key_lt key d0 (hsort pM hpM) (hcur pM hpM) (hdall2 pM hpM)
                  (by rw [hget]; exact hlt)
              exact hcommon d hdall2 hdacc pM hpM hdpM
        have hmeas2 : meas (advanceLagging key d0 (maxDoc key d0 st) st) < fuel :=
          lt_of_lt_of_le (meas_advanceLagging_lt key d0 (maxDoc key d0 st) st hcur p0 hp0 hp0ne)
            (Nat.lt_succ_iff.mp hfuel)
        obtain ⟨res, hres, hsortedRes, hmem⟩ := ih (advanceLagging key d0 (maxDoc key d0 st) st)
          acc hne2 hsort2 ⟨hbnd2, hemit2, hcommon2, haccs⟩ hmeas2
        refine ⟨res, ?_, hsortedRes, ?_⟩
        · simp only [intersectLoop, if_pos hb, if_neg ha]
          exact hres
        · intro d
          rw [hmem d]
          constructor
          · rintro (hd | hd)
            · exact Or.inl hd
            · exact Or.inr (hdall_of d hd)
          · rintro (hd | hd)
            · exact Or.inl hd
            · refine Or.inr (fun p hp => ?_)
              obtain ⟨q, hq, rfl⟩ := List.mem_map.mp hp
              rcases advanceLagging_mem_cases key d0 (maxDoc key d0 st) q with ⟨hqeq, _⟩ | ⟨hqeq, _⟩ <;>
                rw [hqeq]
              · exact hd q hq
              · exact hd q hq
    · -- some cursor has passed the end of its list: the loop returns acc
      refine ⟨acc, ?_, haccs, ?_⟩
      · simp only [intersectLoop, if_neg hb]
      · intro d
        constructor
        · exact fun hd => Or.inl hd
        · rintro (hd | hd)
          · exact hd
          · by_contra hnd
            have hex : ∃ p ∈ st, ¬ p.2 < p.1.length := by
              have h1 : ¬ ∀ p ∈ st, p.2 < p.1.length := by
                rw [← inBounds_iff st]
                exact hb
              push_neg at h1
              obtain ⟨p, hp, hple⟩ := h1
              exact ⟨p, hp, not_lt.mpr hple⟩
            obtain ⟨p, hp, hple⟩ := hex
            have htake : p.1.take p.2 = p.1 := List.take_of_length_le (by omega)
            have hno := hcommon d hd hnd p hp
            rw [htake] at hno
            exact hno (hd p hp)

theorem eq_of_pairwise_lt_ext {l1 l2 : List Nat} (h1 : l1.Pairwise (· < ·))
    (h2 : l2.Pairwise (· < ·)) (h : ∀ a, a ∈ l1 ↔ a ∈ l2) : l1 = l2 := by
  have n1 : l1.Nodup := h1.imp (fun hab => ne_of_lt hab)
  have n2 : l2.Nodup := h2.imp (fun hab => ne_of_lt hab)
  have hp : l1.Perm l2 := (List.perm_ext_iff_of_nodup n1 n2).mpr h
  haveI : IsAntisymm Nat (· < ·) := ⟨fun a b hab hba => absurd hba (not_lt.mpr (le_of_lt hab))⟩
  exact List.eq_of_perm_of_sorted hp h1 h2

/-- C1: for every non-empty encoded query whose selected posting lists are
strictly ascending, `search_engine` returns exactly the documents present in
every selected list, in strictly ascending order; in particular the result
is empty when some selected list is empty, and equals the single selected
list when the query has one token. -/
theorem search_engine_inter (encoded_query : List Nat) (inverted_idx : Nat → List Nat)
    (hne : encoded_query ≠ [])
    (hsorted : ∀ t ∈ encoded_query, (inverted_idx t).Pairwise (· < ·)) :
    (search_engine encoded_query inverted_idx).Pairwise (· < ·) ∧
    (∀ d, d ∈ search_engine encoded_query inverted_idx ↔
      ∀ t ∈ encoded_query, d ∈ inverted_idx t) ∧
    ((∃ t ∈ encoded_query, inverted_idx t = []) →
      search_engine encoded_query inverted_idx = []) ∧
    (∀ t0, encoded_query = [t0] →
      search_engine encoded_query inverted_idx = inverted_idx t0) := by
  set st := (encoded_query.map inverted_idx).map (fun l => (l, 0)) with hst
  have hstne : st ≠ [] := by
    rw [hst]
    simp only [ne_eq, List.map_eq_nil_iff]
    exact hne
  have hmemst : ∀ p ∈ st, ∃ t ∈ encoded_query, p = (inverted_idx t, 0) := by
    intro p hp
    rw [hst] at hp
    obtain ⟨l, hl, rfl⟩ := List.mem_map.mp hp
    obtain ⟨t, ht, rfl⟩ := List.mem_map.mp hl
    exact ⟨t, ht, rfl⟩
  have hsort2 : ∀ p ∈ st, (p.1.map id).Pairwise (· < ·) := by
    intro p hp
    obtain ⟨t, ht, rfl⟩ := hmemst p hp
    rw [List.map_id]
    exact hsorted t ht
  have hinv : LoopInv id st [] := by
    refine ⟨?_, by simp, ?_, by simp⟩
    · intro p hp
      obtain ⟨t, ht, rfl⟩ := hmemst p hp
      exact Nat.zero_le _
    · intro d _ _ p hp
      obtain ⟨t, ht, rfl⟩ := hmemst p hp
      simp
  obtain ⟨res, hres, hsortedRes, hmem⟩ :=
    intersectLoop_spec id 0 (fuelFor st) st [] hstne hsort2 hinv
      (by rw [fuelFor]; omega)
  have hie : encoded_query.isEmpty = false := by
    cases encoded_query with
    | nil => exact absurd rfl hne
    | cons a l => rfl
  have hse : search_engine encoded_query inverted_idx = res.map Prod.fst := by
    unfold search_engine
    rw [hie]
    simp only [Bool.false_eq_true, if_false]
    rw [← hst, hres]
  have hmem2 : ∀ d, d ∈ search_engine encoded_query inverted_idx ↔
      ∀ t ∈ encoded_query, d ∈ inverted_idx t := by
    intro d
    rw [hse, hmem d]
    constructor
    · rintro (hd | hd)
      · simp at hd
      · intro t ht
        have := hd (inverted_idx t, 0) (by
          rw [hst]
          exact List.mem_map_of_mem _ (List.mem_map_of_mem _ ht))
        simpa using this
    · intro hd
      refine Or.inr (fun p hp => ?_)
      obtain ⟨t, ht, rfl⟩ := hmemst p hp
      rw [List.map_id]
      exact hd t ht
  refine ⟨hse ▸ hsortedRes, hmem2, ?_, ?_⟩
  · rintro ⟨t, ht, htnil⟩
    rw [List.eq_nil_iff_forall_not_mem]
    intro d hd
    have := (hmem2 d).mp hd t ht
    rw [htnil] at this
    exact absurd this (List.not_mem_nil d)
  · intro t0 heq
    refine eq_of_pairwise_lt_ext (hse ▸ hsortedRes) (hsorted t0 (by rw [heq]; exact List.mem_cons_self _ _)) ?_
    intro a
    rw [hmem2 a, heq]
    simp

theorem search_engine_inter_witness :
    (search_engine [0, 1] (fun t => if t = 0 then [1, 2, 3] else [2, 4])).Pairwise (· < ·) :=
  (search_engine_inter [0, 1] (fun t => if t = 0 then [1, 2, 3] else [2, 4])
    (by decide) (by decide)).1

/-- C9: the intersection loop always terminates on a non-empty family of
finite posting lists (no sortedness needed): started with all cursors at 0
and fuel one more than the total length of the lists, it returns a result,
because each iteration advances at least one cursor — the remaining-work
measure strictly decreases in both branches of the loop body. -/
theorem intersectLoop_terminates {α : Type} (key : α → Nat) (d0 : α)
    (lists : List (List α)) (st : List (List α × Nat))
    (hlists : lists ≠ []) (hst : st ≠ []) (hb : inBounds st = true) :
    (intersectLoop key d0 (fuelFor (lists.map (fun l => (l, 0))))
      (lists.map (fun l => (l, 0))) []).isSome = true ∧
    meas (if allAtMax key d0 st then advanceAll st
      else advanceLagging key d0 (maxDoc key d0 st) st) < meas st := by
  constructor
  · have hne0 : lists.map (fun l => (l, 0)) ≠ [] := by
      simp only [ne_eq, List.map_eq_nil_iff]
      exact hlists
    have hb0 : ∀ p ∈ lists.map (fun l => (l, 0)), p.2 ≤ p.1.length := by
      intro p hp
      obtain ⟨l, _, rfl⟩ := List.mem_map.mp hp
      exact Nat.zero_le _
    obtain ⟨res, hres⟩ := intersectLoop_total key d0 (fuelFor (lists.map (fun l => (l, 0))))
      (lists.map (fun l => (l, 0))) [] hne0 hb0 (by rw [fuelFor]; omega)
    rw [hres]
    rfl
  · have hcur : ∀ p ∈ st, p.2 < p.1.length := (inBounds_iff st).mp hb
    by_cases ha : allAtMax key d0 st = true
    · rw [if_pos ha]
      exact meas_advanceAll_lt st hst hcur
    · rw [if_neg ha]
      have hex : ∃ p0 ∈ st, key (currentOf d0 p0) ≠ maxDoc key d0 st := by
        have h1 : ¬ ∀ p ∈ st, key (currentOf d0 p) = maxDoc key d0 st := by
          rw [← allAtMax_iff key d0 st]
          exact ha
        push_neg at h1
        exact h1
      obtain ⟨p0, hp0, hp0ne⟩ := hex
      exact meas_advanceLagging_lt key d0 (maxDoc key d0 st) st hcur p0 hp0 hp0ne

theorem intersectLoop_terminates_witness :
    (intersectLoop id 0 (fuelFor ([[1]].map (fun l => (l, 0))))
      ([[1]].map (fun l => (l, (0 : Nat)))) []).isSome = true ∧
    meas (if allAtMax id 0 [([1], 0)] then advanceAll [([1], 0)]
      else advanceLagging id 0 (maxDoc id 0 [([1], 0)]) [([1], 0)]) < meas [([1], (0 : Nat))] :=
  intersectLoop_terminates id 0 [[1]] [([1], 0)] (by decide) (by decide) (by decide)

end SearchEngines
